import Mathlib

/-!
Verification of the data-acquisition and smoothing pipeline of the
crypto-sentiment dashboard (src/app.py).

The embedding models the pipeline over exact rationals (ℚ): Python floats
are modelled as ℚ, `round(x, 2)` as rounding `x * 100` to the nearest
integer and dividing by 100.  The external API call is modelled by an
environment recording the outcome of the primary and the secondary fetch
attempt; a raw record is an association list from field names to raw
values, where a raw value either parses as a number or is malformed
(modelling Python `float(...)` which either succeeds or raises).  A row
missing the selected column is modelled as a failed conversion.
-/

namespace CryptoSentiment

/-- Configured symbol list (src/app.py line 9). -/
def SYMBOLS : List String := ["BTCUSDT", "ETHUSDT", "BNBUSDT", "SOLUSDT"]

/-- Sampling period (src/app.py line 10). -/
def PERIOD : String := "4h"

/-- EMA span: 42 four-hour buckets, i.e. seven days (src/app.py line 11). -/
def WINDOW_SIZE : ℕ := 42

/-- The EMA smoothing factor used by `ewm(span=WINDOW_SIZE, adjust=False)`:
`alpha = 2 / (span + 1) = 2 / 43`. -/
def alpha : ℚ := 2 / (WINDOW_SIZE + 1)

/-- A raw field value inside one API record: either it parses as a float,
or the conversion `astype(float)` would fail on it. -/
inductive RawVal
  | num (q : ℚ)
  | malformed (s : String)
deriving DecidableEq

/-- One record returned by the API, as an association list from field names
to raw values (the shape `pd.DataFrame` receives). -/
abbrev Row := List (String × RawVal)

/-- A Python exception reaching some `except` clause of `get_data`. -/
inductive PyErr
  | attrErr
  | keyErr (s : String)
  | valueErr (s : String)
  | indexErr
  | generic (s : String)
deriving DecidableEq

/-- `str(e)` for a modelled exception. -/
def PyErr.msg : PyErr → String
  | .attrErr => "AttributeError"
  | .keyErr s => s
  | .valueErr s => "could not convert string to float: " ++ s
  | .indexErr => "single positional indexer is out-of-bounds"
  | .generic s => s

/-- Outcome of looking up and calling one of the two client methods:
the call returns data, the method name is absent (`AttributeError`), or
the call raises some other exception. -/
inductive FetchResult
  | ok (data : List Row)
  | attrMissing
  | exc (msg : String)
deriving DecidableEq

/-- Which client method an attempt used (src/app.py lines 24 and 27). -/
inductive Method
  | primaryM
  | secondaryM
deriving DecidableEq

/-- The environment one `get_data` call runs in: what the primary method
attempt would yield, and what the secondary one would. -/
structure Env where
  primary : FetchResult
  secondary : FetchResult
deriving DecidableEq

/-- The nested try/except of src/app.py lines 23-27: try the primary
method; only on `AttributeError` try the secondary method.  Returns the
fetched data (or the exception that escapes the inner try) together with
the list of methods actually attempted, in order. -/
def fetchRun (e : Env) : Except PyErr (List Row) × List Method :=
  match e.primary with
  | .ok d => (.ok d, [.primaryM])
  | .exc m => (.error (.generic m), [.primaryM])
  | .attrMissing =>
    match e.secondary with
    | .ok d => (.ok d, [.primaryM, .secondaryM])
    | .exc m => (.error (.generic m), [.primaryM, .secondaryM])
    | .attrMissing => (.error .attrErr, [.primaryM, .secondaryM])

/-- The columns of `pd.DataFrame(data)`: the union of the records' field
names (membership is what the code tests; we keep one copy of each name). -/
def dfColumns (data : List Row) : List String :=
  ((data.map (fun r => r.map Prod.fst)).flatten).dedup

/-- Field normalization (src/app.py line 36):
`'longAccount' if 'longAccount' in df.columns else 'longAccountRatio'`. -/
def targetCol (cols : List String) : String :=
  if "longAccount" ∈ cols then "longAccount" else "longAccountRatio"

/-- Diagnostic of src/app.py line 30, returned on an empty result set. -/
def emptyMsg : String := "API返回数据为空 (请检查币种符号)"

/-- Diagnostic of src/app.py line 39: names the columns actually present. -/
def colsMsg (cols : List String) : String :=
  "找不到数据列，现有列: [" ++ String.intercalate ", " cols ++ "]"

/-- Prefix of src/app.py line 53: `f"调试信息: {str(e)}"`. -/
def debugMsg (s : String) : String := "调试信息: " ++ s

/-- `float(...)` applied to one row's value in the target column. -/
def parseVal (target : String) (row : Row) : Except PyErr ℚ :=
  match row.lookup target with
  | none => .error (.keyErr ("KeyError: " ++ target))
  | some (.num q) => .ok q
  | some (.malformed s) => .error (.valueErr s)

/-- `df[target_col].astype(float)` (src/app.py line 41): the whole column
converted, failing if any value fails to convert. -/
def extractFloats (target : String) : List Row → Except PyErr (List ℚ)
  | [] => .ok []
  | row :: rest =>
    match parseVal target row with
    | .error f => .error f
    | .ok q =>
      match extractFloats target rest with
      | .error f => .error f
      | .ok qs => .ok (q :: qs)

/-- The running EMA continuation: given the previous EMA value, emit the
EMA value for each remaining element (`adjust=False` recurrence). -/
def ewmAcc (a : ℚ) : ℚ → List ℚ → List ℚ
  | _, [] => []
  | prev, x :: xs => (a * x + (1 - a) * prev) :: ewmAcc a (a * x + (1 - a) * prev) xs

/-- `series.ewm(span, adjust=False).mean()`: the first output equals the
first input; each later output is `a * x + (1 - a) * previous`. -/
def ewm (a : ℚ) : List ℚ → List ℚ
  | [] => []
  | x :: xs => x :: ewmAcc a x xs

/-- The `smoothed_long` column (src/app.py line 44):
`df[target_col].ewm(span=WINDOW_SIZE, adjust=False).mean() * 100`. -/
def smoothedCol (ratios : List ℚ) : List ℚ :=
  (ewm alpha ratios).map (fun v => v * 100)

/-- Python `round(x, 2)` over the exact-rational model. -/
def round2 (x : ℚ) : ℚ := ((round (x * 100) : ℤ) : ℚ) / 100

/-- A per-symbol sentiment reading `(long_pc, short_pc, error)`. -/
structure Reading where
  long : ℚ
  short : ℚ
  error : Option String
deriving DecidableEq

/-- src/app.py lines 44-49: take the last smoothed value (`iloc[-1]`,
an `IndexError` when the frame is empty), round it, and derive the pair. -/
def readingOfRatios (ratios : List ℚ) : Except PyErr Reading :=
  match (smoothedCol ratios).getLast? with
  | some v => .ok ⟨round2 v, round2 (100 - round2 v), none⟩
  | none => .error .indexErr

/-- The body of the outer `try` of `get_data` (src/app.py lines 21-49):
fetch, emptiness check, field normalization, conversion, smoothing.
`.error` is an exception that would reach the outer `except`. -/
def pipelineInner (e : Env) : Except PyErr Reading :=
  match (fetchRun e).1 with
  | .error f => .error f
  | .ok data =>
    if data.length = 0 then .ok ⟨50, 50, some emptyMsg⟩
    else
      if targetCol (dfColumns data) ∈ dfColumns data then
        match extractFloats (targetCol (dfColumns data)) data with
        | .error f => .error f
        | .ok ratios => readingOfRatios ratios
      else .ok ⟨50, 50, some (colsMsg (dfColumns data))⟩

/-- `get_data` (src/app.py lines 19-53): the outer `except Exception`
turns any escaping exception into the neutral reading with a debug
string. -/
def get_data (e : Env) : Reading :=
  match pipelineInner e with
  | .ok r => r
  | .error f => ⟨50, 50, some (debugMsg f.msg)⟩

/-- Python truthiness of the `error` field (`if error:` on line 126). -/
def truthy : Option String → Bool
  | none => false
  | some s => decide (s ≠ "")

/-- The status banner chosen per symbol. -/
inductive Banner
  | errBanner
  | longWarn
  | shortWarn
  | neutral
deriving DecidableEq

/-- The `if error / elif long_v >= 65 / elif long_v <= 35` chain of
src/app.py lines 126-131. -/
def classify (e : Option String) (long_v : ℚ) : Banner :=
  if truthy e then .errBanner
  else if long_v ≥ 65 then .longWarn
  else if long_v ≤ 35 then .shortWarn
  else .neutral

/-- One tick of the render loop (src/app.py lines 119-120): every symbol,
in list order, gets its own `get_data` reading. -/
def tick (envOf : String → Env) (symbols : List String) : List (String × Reading) :=
  symbols.map (fun s => (s, get_data (envOf s)))

/-- Modelled from the spec: the EMA recurrence in the spec's own words,
`ema[0] = ratios[0]`, `ema[i] = alpha * ratios[i] + (1 - alpha) * ema[i-1]`,
folded along the tail of the sequence.  Used only to compare the pipeline
against the spec's statement of the algorithm. -/
def emaSpec (r0 : ℚ) (rs : List ℚ) : ℚ :=
  rs.foldl (fun ema x => alpha * x + (1 - alpha) * ema) r0

/-- The last entry of the EMA of a ratio list (ratio scale), 0 if empty. -/
def ewmLastD (ratios : List ℚ) : ℚ := (ewm alpha ratios).getLastD 0

/-- The pipeline's smoothed percentage for the sequence
`0.5` followed by `n` copies of `0.6` (spec §8 known-sequence test). -/
def claimSeq (n : ℕ) : ℚ :=
  (smoothedCol ((1 : ℚ)/2 :: List.replicate n ((3 : ℚ)/5))).getLastD 0

/-- Whether an inner-pipeline outcome is an out-of-bounds `iloc[-1]`. -/
def isIndexErr : Except PyErr Reading → Bool
  | .error .indexErr => true
  | _ => false

/-! ## Helper lemmas -/

lemma alpha_eq : alpha = 2 / 43 := by norm_num [alpha, WINDOW_SIZE]

lemma getLastD_ewmAcc (a : ℚ) (xs : List ℚ) :
    ∀ p : ℚ, (ewmAcc a p xs).getLastD p =
      xs.foldl (fun ema x => a * x + (1 - a) * ema) p := by
  induction xs with
  | nil => intro p; rfl
  | cons x xs ih =>
    intro p
    simp only [ewmAcc, List.getLastD_cons, List.foldl_cons]
    exact ih (a * x + (1 - a) * p)

lemma cons_getLast? (a : ℚ) (l : List ℚ) : (a :: l).getLast? = some (l.getLastD a) := by
  induction l generalizing a with
  | nil => rfl
  | cons b t ih => rw [List.getLast?_cons_cons, ih b, List.getLastD_cons]

lemma ewm_getLast? (a r : ℚ) (rs : List ℚ) :
    (ewm a (r :: rs)).getLast? =
      some (rs.foldl (fun ema x => a * x + (1 - a) * ema) r) := by
  rw [ewm, cons_getLast?, getLastD_ewmAcc]

lemma smoothedCol_getLast? (r : ℚ) (rs : List ℚ) :
    (smoothedCol (r :: rs)).getLast? = some (emaSpec r rs * 100) := by
  rw [smoothedCol, List.getLast?_map, ewm_getLast?]
  rfl

lemma readingOfRatios_eq (r : ℚ) (rs : List ℚ) :
    readingOfRatios (r :: rs) =
      .ok ⟨round2 (emaSpec r rs * 100),
           round2 (100 - round2 (emaSpec r rs * 100)), none⟩ := by
  rw [readingOfRatios, smoothedCol_getLast?]

lemma round2_int_div (k : ℤ) : round2 ((k : ℚ) / 100) = (k : ℚ) / 100 := by
  have h : ((k : ℚ) / 100) * 100 = (k : ℚ) := by field_simp
  rw [round2, h, round_intCast]

lemma round2_complement (v : ℚ) : round2 (100 - round2 v) = 100 - round2 v := by
  have h : 100 - round2 v = ((10000 - round (v * 100) : ℤ) : ℚ) / 100 := by
    rw [round2]; push_cast; ring
  rw [h, round2_int_div]

lemma str_append_ne (a b : String) (h : a.data ≠ []) : a ++ b ≠ "" := by
  intro hab
  apply h
  have h2 := congrArg String.data hab
  rw [String.data_append] at h2
  exact (List.append_eq_nil.mp h2).1

lemma debugMsg_ne (s : String) : debugMsg s ≠ "" :=
  str_append_ne _ _ (by decide)

lemma emptyMsg_ne : emptyMsg ≠ "" := by decide

lemma colsMsg_ne (cols : List String) : colsMsg cols ≠ "" := by
  rw [colsMsg]
  apply str_append_ne
  rw [String.data_append]
  intro h
  exact absurd (List.append_eq_nil.mp h).1 (by decide)

lemma extractFloats_len (t : String) :
    ∀ (l : List Row) (qs : List ℚ), extractFloats t l = .ok qs → qs.length = l.length := by
  intro l
  induction l with
  | nil =>
    intro qs h
    simp only [extractFloats, Except.ok.injEq] at h
    rw [← h]
    rfl
  | cons row rest ih =>
    intro qs h
    simp only [extractFloats] at h
    cases hp : parseVal t row with
    | error f => rw [hp] at h; exact absurd h (by simp)
    | ok q =>
      rw [hp] at h
      cases hr : extractFloats t rest with
      | error f => rw [hr] at h; exact absurd h (by simp)
      | ok qs' =>
        rw [hr] at h
        simp only [Except.ok.injEq] at h
        rw [← h, List.length_cons, List.length_cons, ih qs' hr]

lemma parseVal_not_index (t : String) (row : Row) (f : PyErr)
    (h : parseVal t row = .error f) : isIndexErr (Except.error f) = false := by
  rw [parseVal] at h
  cases hl : row.lookup t with
  | none =>
    rw [hl] at h
    simp only [Except.error.injEq] at h
    rw [← h]; rfl
  | some v =>
    rw [hl] at h
    cases v with
    | num q => exact absurd h (by simp)
    | malformed s =>
      simp only [Except.error.injEq] at h
      rw [← h]; rfl

lemma extractFloats_not_index (t : String) :
    ∀ (l : List Row) (f : PyErr), extractFloats t l = .error f →
      isIndexErr (Except.error f) = false := by
  intro l
  induction l with
  | nil => intro f h; exact absurd h (by simp [extractFloats])
  | cons row rest ih =>
    intro f h
    simp only [extractFloats] at h
    cases hp : parseVal t row with
    | error g =>
      rw [hp] at h
      simp only [Except.error.injEq] at h
      rw [← h]
      exact parseVal_not_index t row g hp
    | ok q =>
      rw [hp] at h
      cases hr : extractFloats t rest with
      | error g =>
        rw [hr] at h
        simp only [Except.error.injEq] at h
        rw [← h]
        exact ih g hr
      | ok qs => rw [hr] at h; exact absurd h (by simp)

lemma pipelineInner_cases (e : Env) :
    (∃ f, pipelineInner e = .error f) ∨
    (∃ m, pipelineInner e = .ok ⟨50, 50, some m⟩ ∧ m ≠ "") ∨
    (∃ r rs, pipelineInner e = readingOfRatios (r :: rs)) := by
  rw [pipelineInner]
  cases hf : (fetchRun e).1 with
  | error f => exact Or.inl ⟨f, rfl⟩
  | ok data =>
    dsimp only
    by_cases h0 : data.length = 0
    · rw [if_pos h0]
      exact Or.inr (Or.inl ⟨emptyMsg, rfl, emptyMsg_ne⟩)
    · rw [if_neg h0]
      by_cases hin : targetCol (dfColumns data) ∈ dfColumns data
      · rw [if_pos hin]
        cases he : extractFloats (targetCol (dfColumns data)) data with
        | error f => exact Or.inl ⟨f, rfl⟩
        | ok ratios =>
          refine Or.inr (Or.inr ?_)
          have hlen := extractFloats_len _ data ratios he
          cases hratios : ratios with
          | nil =>
            rw [hratios] at hlen
            exact absurd (by simpa using hlen.symm) h0
          | cons r rs => exact ⟨r, rs, rfl⟩
      · rw [if_neg hin]
        exact Or.inr (Or.inl ⟨colsMsg (dfColumns data), rfl, colsMsg_ne _⟩)

lemma get_data_shape (e : Env) :
    (∃ m, get_data e = ⟨50, 50, some m⟩ ∧ m ≠ "") ∨
    (∃ r rs, readingOfRatios (r :: rs) = Except.ok (get_data e)) := by
  rcases pipelineInner_cases e with ⟨f, hp⟩ | ⟨m, hp, hm⟩ | ⟨r, rs, hp⟩
  · left
    refine ⟨debugMsg f.msg, ?_, debugMsg_ne _⟩
    rw [get_data, hp]
  · left
    refine ⟨m, ?_, hm⟩
    rw [get_data, hp]
  · right
    refine ⟨r, rs, ?_⟩
    have h2 := readingOfRatios_eq r rs
    rw [get_data, hp, h2]

lemma emaSpec_bounds : ∀ (rs : List ℚ) (r : ℚ), 0 ≤ r → r ≤ 1 →
    (∀ x ∈ rs, 0 ≤ x ∧ x ≤ 1) → 0 ≤ emaSpec r rs ∧ emaSpec r rs ≤ 1 := by
  intro rs
  induction rs with
  | nil => intro r h0 h1 _; exact ⟨h0, h1⟩
  | cons x xs ih =>
    intro r h0 h1 hm
    obtain ⟨hx0, hx1⟩ := hm x (List.mem_cons_self x xs)
    have hnext0 : 0 ≤ alpha * x + (1 - alpha) * r := by rw [alpha_eq]; nlinarith
    have hnext1 : alpha * x + (1 - alpha) * r ≤ 1 := by rw [alpha_eq]; nlinarith
    have hrest := ih (alpha * x + (1 - alpha) * r) hnext0 hnext1
      (fun y hy => hm y (List.mem_cons_of_mem x hy))
    simpa [emaSpec, List.foldl_cons] using hrest

lemma round2_nonneg (v : ℚ) (h : 0 ≤ v) : 0 ≤ round2 v := by
  rw [round2]
  apply div_nonneg _ (by norm_num)
  have hz : (0:ℤ) ≤ round (v * 100) := by
    rw [round_eq]
    apply Int.le_floor.mpr
    push_cast
    nlinarith
  exact_mod_cast hz

lemma round2_le_100 (v : ℚ) (h : v ≤ 100) : round2 v ≤ 100 := by
  rw [round2, div_le_iff₀ (by norm_num : (0:ℚ) < 100)]
  have hz : round (v * 100) ≤ 10000 := by
    rw [round_eq]
    have hlt : ⌊v * 100 + 1/2⌋ < 10001 := by
      apply Int.floor_lt.mpr
      push_cast
      nlinarith
    omega
  calc ((round (v * 100) : ℤ) : ℚ) ≤ (10000 : ℚ) := by exact_mod_cast hz
    _ = 100 * 100 := by norm_num

lemma emaSpec_nil (r : ℚ) : emaSpec r [] = r := rfl

lemma emaSpec_append (r x : ℚ) (rs : List ℚ) :
    emaSpec r (rs ++ [x]) = alpha * x + (1 - alpha) * emaSpec r rs := by
  simp [emaSpec, List.foldl_append]

lemma emaSpec_replicate (r c : ℚ) (rs : List ℚ) :
    ∀ n : ℕ, emaSpec r (rs ++ List.replicate n c) =
      c - (c - emaSpec r rs) * (1 - alpha) ^ n := by
  intro n
  induction n with
  | zero =>
    simp only [List.replicate_zero, List.append_nil, pow_zero, mul_one]
    ring
  | succ n ih =>
    rw [List.replicate_succ', ← List.append_assoc, emaSpec_append, ih]
    ring

lemma ewmLastD_cons (r : ℚ) (rs : List ℚ) : ewmLastD (r :: rs) = emaSpec r rs := by
  rw [ewmLastD, ewm, List.getLastD_cons, getLastD_ewmAcc]
  rfl

lemma claimSeq_eq (n : ℕ) : claimSeq n = 60 - 10 * ((41:ℚ)/43) ^ n := by
  rw [claimSeq, List.getLastD_eq_getLast?, smoothedCol_getLast?]
  have h := emaSpec_replicate ((1:ℚ)/2) ((3:ℚ)/5) [] n
  simp only [List.nil_append, emaSpec_nil] at h
  simp only [Option.getD_some]
  rw [h, alpha_eq]
  ring

/-! ## Claim theorems -/

/-- C1: the pipeline's smoothed value equals the EMA computed by the
recurrence `ema[0] = ratios[0]`, `ema[i] = alpha * ratios[i] + (1 - alpha)
* ema[i-1]` with `alpha = 2 / 43` (`emaSpec`, written from the spec's
words), and the final output is `ema[last] * 100` rounded to 2 decimal
places. -/
theorem ema_recurrence_refinement (r x : ℚ) (rs : List ℚ) :
    emaSpec r [] = r ∧
    emaSpec r (rs ++ [x]) = alpha * x + (1 - alpha) * emaSpec r rs ∧
    readingOfRatios (r :: rs) =
      .ok ⟨round2 (emaSpec r rs * 100),
           round2 (100 - round2 (emaSpec r rs * 100)), none⟩ :=
  ⟨emaSpec_nil r, emaSpec_append r x rs, readingOfRatios_eq r rs⟩

/-- C2: whenever the error field of a reading is absent,
`long_pct + short_pct = 100` exactly. -/
theorem reading_percentages_sum_to_100 (e : Env)
    (h : (get_data e).error = none) :
    (get_data e).long + (get_data e).short = 100 := by
  rcases get_data_shape e with ⟨m, hm, _⟩ | ⟨r, rs, hr⟩
  · rw [hm] at h
    exact absurd h (by simp)
  · rw [readingOfRatios_eq] at hr
    have h3 : get_data e = ⟨round2 (emaSpec r rs * 100),
        round2 (100 - round2 (emaSpec r rs * 100)), none⟩ := by
      injection hr with h4
      exact h4.symm
    rw [h3]
    show round2 (emaSpec r rs * 100) + round2 (100 - round2 (emaSpec r rs * 100)) = 100
    rw [round2_complement]
    ring

/-- Witness for C2: a concrete successful environment. -/
theorem reading_percentages_sum_to_100_witness :
    (get_data ⟨.ok [[("longAccount", RawVal.num (1/2))]], .attrMissing⟩).long +
      (get_data ⟨.ok [[("longAccount", RawVal.num (1/2))]], .attrMissing⟩).short = 100 :=
  reading_percentages_sum_to_100 ⟨.ok [[("longAccount", RawVal.num (1/2))]], .attrMissing⟩
    (by decide)

/-- C3: `get_data` is a total function (the outer `except` catches every
modelled exception); on any failure it returns the neutral reading
`(50, 50)` with a non-empty diagnostic, and when the error field is absent
the reading is the success-path computation on some non-empty ratio
series. -/
theorem get_data_failure_isolation (e : Env) :
    match (get_data e).error with
    | some s => s ≠ "" ∧ (get_data e).long = 50 ∧ (get_data e).short = 50
    | none => ∃ r rs, readingOfRatios (r :: rs) = Except.ok (get_data e) := by
  rcases get_data_shape e with ⟨m, hm, hne⟩ | ⟨r, rs, hr⟩
  · rw [hm]
    exact ⟨hne, rfl, rfl⟩
  · have h2 := readingOfRatios_eq r rs
    rw [h2] at hr
    have h3 : get_data e = ⟨round2 (emaSpec r rs * 100),
        round2 (100 - round2 (emaSpec r rs * 100)), none⟩ := by
      injection hr with h4
      exact h4.symm
    rw [h3]
    exact ⟨r, rs, h2⟩

/-- C4: in a single tick, every symbol of the list yields a reading, in
the original list order, and each reading is that symbol's own pipeline
output, independent of every other symbol's outcome. -/
theorem tick_processes_every_symbol (envOf : String → Env) (symbols : List String) :
    (tick envOf symbols).map Prod.fst = symbols ∧
    ∀ s r, (s, r) ∈ tick envOf symbols → r = get_data (envOf s) := by
  constructor
  · induction symbols with
    | nil => rfl
    | cons a t ih =>
      simp only [tick, List.map_cons] at ih ⊢
      rw [ih]
  · intro s r h
    rw [tick, List.mem_map] at h
    obtain ⟨s', _, heq⟩ := h
    injection heq with h1 h2
    rw [← h1, ← h2]

/-- C5: field normalization prefers `longAccount`, falls back to
`longAccountRatio`, and when neither is present the pipeline returns the
diagnostic naming the columns actually present. -/
theorem normalizer_field_preference (data : List Row) :
    ("longAccount" ∈ dfColumns data → targetCol (dfColumns data) = "longAccount") ∧
    ("longAccount" ∉ dfColumns data → targetCol (dfColumns data) = "longAccountRatio") ∧
    (∀ e : Env, (fetchRun e).1 = .ok data → data ≠ [] →
      "longAccount" ∉ dfColumns data → "longAccountRatio" ∉ dfColumns data →
      get_data e = ⟨50, 50, some (colsMsg (dfColumns data))⟩) := by
  refine ⟨fun h => by rw [targetCol, if_pos h], fun h => by rw [targetCol, if_neg h], ?_⟩
  intro e he h0 h1 h2
  have hnot : targetCol (dfColumns data) ∉ dfColumns data := by
    rw [targetCol, if_neg h1]
    exact h2
  have hp : pipelineInner e = .ok ⟨50, 50, some (colsMsg (dfColumns data))⟩ := by
    rw [pipelineInner, he]
    dsimp only
    rw [if_neg (fun hh => h0 (List.length_eq_zero.mp hh)), if_neg hnot]
  rw [get_data, hp]

/-- Witness for C5: a record set with neither known field name. -/
theorem normalizer_field_preference_witness :
    get_data ⟨.ok [[("foo", RawVal.num 1)]], .attrMissing⟩ =
      ⟨50, 50, some (colsMsg ["foo"])⟩ := by
  have h := (normalizer_field_preference [[("foo", RawVal.num 1)]]).2.2
    ⟨.ok [[("foo", RawVal.num 1)]], .attrMissing⟩ rfl (by decide) (by decide) (by decide)
  rw [h, show dfColumns [[("foo", RawVal.num 1)]] = ["foo"] from by decide]

/-- C6: the fetcher attempts the primary method first; the secondary
method is attempted (exactly once) precisely when the primary attempt
fails with a missing-method (`AttributeError`) failure, and no further
attempt ever happens. -/
theorem fetch_fallback_trace (e : Env) :
    (fetchRun e).2.head? = some Method.primaryM ∧
    (Method.secondaryM ∈ (fetchRun e).2 ↔ e.primary = FetchResult.attrMissing) ∧
    (fetchRun e).2.count Method.secondaryM ≤ 1 ∧
    (fetchRun e).2.length ≤ 2 := by
  rcases e with ⟨p, s⟩
  cases p with
  | ok d =>
    exact ⟨rfl, by simp [fetchRun],
      (by decide : List.count Method.secondaryM [Method.primaryM] ≤ 1),
      (by decide : [Method.primaryM].length ≤ 2)⟩
  | exc m =>
    exact ⟨rfl, by simp [fetchRun],
      (by decide : List.count Method.secondaryM [Method.primaryM] ≤ 1),
      (by decide : [Method.primaryM].length ≤ 2)⟩
  | attrMissing =>
    cases s with
    | ok d =>
      exact ⟨rfl, by simp [fetchRun],
        (by decide : List.count Method.secondaryM [Method.primaryM, Method.secondaryM] ≤ 1),
        (by decide : [Method.primaryM, Method.secondaryM].length ≤ 2)⟩
    | exc m =>
      exact ⟨rfl, by simp [fetchRun],
        (by decide : List.count Method.secondaryM [Method.primaryM, Method.secondaryM] ≤ 1),
        (by decide : [Method.primaryM, Method.secondaryM].length ≤ 2)⟩
    | attrMissing =>
      exact ⟨rfl, by simp [fetchRun],
        (by decide : List.count Method.secondaryM [Method.primaryM, Method.secondaryM] ≤ 1),
        (by decide : [Method.primaryM, Method.secondaryM].length ≤ 2)⟩

/-- C7: for ratios in [0, 1], the pipeline's smoothed output (and the
derived short percentage) lies in [0, 100]. -/
theorem smoothed_output_bounded (r : ℚ) (rs : List ℚ)
    (h : ∀ x ∈ r :: rs, 0 ≤ x ∧ x ≤ 1) :
    ∃ rd, readingOfRatios (r :: rs) = .ok rd ∧
      0 ≤ rd.long ∧ rd.long ≤ 100 ∧ 0 ≤ rd.short ∧ rd.short ≤ 100 := by
  obtain ⟨hr0, hr1⟩ := h r (List.mem_cons_self r rs)
  have hb := emaSpec_bounds rs r hr0 hr1 (fun x hx => h x (List.mem_cons_of_mem r hx))
  have h0 : (0:ℚ) ≤ emaSpec r rs * 100 := by nlinarith [hb.1]
  have h1 : emaSpec r rs * 100 ≤ 100 := by nlinarith [hb.2]
  have hl0 := round2_nonneg _ h0
  have hl1 := round2_le_100 _ h1
  refine ⟨_, readingOfRatios_eq r rs, hl0, hl1, ?_, ?_⟩
  · show (0:ℚ) ≤ round2 (100 - round2 (emaSpec r rs * 100))
    rw [round2_complement]
    linarith
  · show round2 (100 - round2 (emaSpec r rs * 100)) ≤ 100
    rw [round2_complement]
    linarith

/-- Witness for C7: the one-element series `[1/2]`. -/
theorem smoothed_output_bounded_witness :
    ∃ rd, readingOfRatios ((1:ℚ)/2 :: []) = .ok rd ∧
      0 ≤ rd.long ∧ rd.long ≤ 100 ∧ 0 ≤ rd.short ∧ rd.short ≤ 100 :=
  smoothed_output_bounded ((1:ℚ)/2) [] (by
    intro x hx
    rw [List.mem_singleton] at hx
    subst hx
    norm_num)

/-- C8: on an error-free reading the long warning triggers iff
`long_pct ≥ 65` and the short warning iff `long_pct ≤ 35`; in particular
at 65 / 64.99 and 35 / 35.01 the banners flip exactly as claimed. -/
theorem classification_thresholds (v : ℚ) :
    (classify none v = Banner.longWarn ↔ 65 ≤ v) ∧
    (classify none v = Banner.shortWarn ↔ v ≤ 35) ∧
    classify none 65 = Banner.longWarn ∧
    classify none (6499/100) = Banner.neutral ∧
    classify none 35 = Banner.shortWarn ∧
    classify none (3501/100) = Banner.neutral := by
  have hc : ∀ w : ℚ, classify none w =
      (if w ≥ 65 then Banner.longWarn
       else if w ≤ 35 then Banner.shortWarn else Banner.neutral) := fun _ => rfl
  refine ⟨?_, ?_,
    by rw [hc, if_pos (by norm_num)],
    by rw [hc, if_neg (by norm_num), if_neg (by norm_num)],
    by rw [hc, if_neg (by norm_num), if_pos (by norm_num)],
    by rw [hc, if_neg (by norm_num), if_neg (by norm_num)]⟩
  · rw [hc]
    by_cases h1 : v ≥ 65
    · rw [if_pos h1]
      exact ⟨fun _ => h1, fun _ => rfl⟩
    · rw [if_neg h1]
      constructor
      · intro h
        by_cases h2 : v ≤ 35
        · rw [if_pos h2] at h
          exact Banner.noConfusion h
        · rw [if_neg h2] at h
          exact Banner.noConfusion h
      · intro h
        exact absurd h h1
  · rw [hc]
    by_cases h1 : v ≥ 65
    · rw [if_pos h1]
      constructor
      · intro h
        exact Banner.noConfusion h
      · intro h
        linarith
    · rw [if_neg h1]
      by_cases h2 : v ≤ 35
      · rw [if_pos h2]
        exact ⟨fun _ => h2, fun _ => rfl⟩
      · rw [if_neg h2]
        constructor
        · intro h
          exact Banner.noConfusion h
        · intro h
          exact absurd h h2

/-- C9: for the ratio sequence `0.5` then repeated `0.6` with span 42,
the smoothed percentage starts at 50, increases strictly, and never
reaches 60; and in general the EMA of any sequence with a constant tail
converges to that constant. -/
theorem ema_monotone_no_overshoot_convergence :
    claimSeq 0 = 50 ∧
    (∀ n, claimSeq n < claimSeq (n + 1)) ∧
    (∀ n, 50 ≤ claimSeq n ∧ claimSeq n < 60) ∧
    (∀ (l : List ℚ) (c : ℚ), l ≠ [] →
      Filter.Tendsto (fun n => ((ewmLastD (l ++ List.replicate n c) : ℚ) : ℝ))
        Filter.atTop (nhds ((c : ℚ) : ℝ))) := by
  have hq0 : (0:ℚ) < (41:ℚ)/43 := by norm_num
  have hq1 : (41:ℚ)/43 < 1 := by norm_num
  refine ⟨by rw [claimSeq_eq]; norm_num, ?_, ?_, ?_⟩
  · intro n
    rw [claimSeq_eq, claimSeq_eq]
    have hp : (0:ℚ) < ((41:ℚ)/43) ^ n := pow_pos hq0 n
    have hstep : ((41:ℚ)/43) ^ (n + 1) < ((41:ℚ)/43) ^ n := by
      calc ((41:ℚ)/43) ^ (n + 1) = ((41:ℚ)/43) ^ n * ((41:ℚ)/43) := pow_succ _ n
        _ < ((41:ℚ)/43) ^ n * 1 := mul_lt_mul_of_pos_left hq1 hp
        _ = ((41:ℚ)/43) ^ n := mul_one _
    linarith
  · intro n
    rw [claimSeq_eq]
    have hp : (0:ℚ) < ((41:ℚ)/43) ^ n := pow_pos hq0 n
    have hle : ((41:ℚ)/43) ^ n ≤ 1 := pow_le_one₀ (le_of_lt hq0) (le_of_lt hq1)
    constructor <;> linarith
  · intro l c hl
    obtain ⟨r, rs, rfl⟩ := List.exists_cons_of_ne_nil hl
    have hpt : ∀ n : ℕ, ((ewmLastD ((r :: rs) ++ List.replicate n c) : ℚ) : ℝ) =
        (c : ℝ) - ((c : ℝ) - ((emaSpec r rs : ℚ) : ℝ)) * ((41:ℝ)/43) ^ n := by
      intro n
      rw [List.cons_append, ewmLastD_cons, emaSpec_replicate r c rs n, alpha_eq]
      push_cast
      norm_num
    have hgeo : Filter.Tendsto (fun n : ℕ => ((41:ℝ)/43) ^ n) Filter.atTop (nhds 0) :=
      tendsto_pow_atTop_nhds_zero_of_lt_one (by norm_num) (by norm_num)
    have hmain : Filter.Tendsto
        (fun n : ℕ => (c : ℝ) - ((c : ℝ) - ((emaSpec r rs : ℚ) : ℝ)) * ((41:ℝ)/43) ^ n)
        Filter.atTop (nhds ((c : ℝ) - ((c : ℝ) - ((emaSpec r rs : ℚ) : ℝ)) * 0)) :=
      Filter.Tendsto.sub tendsto_const_nhds (Filter.Tendsto.const_mul _ hgeo)
    rw [mul_zero, sub_zero] at hmain
    exact Filter.Tendsto.congr (fun n => (hpt n).symm) hmain

/-- Witness for C9: the convergence conjunct at the claim's own sequence. -/
theorem ema_convergence_witness :
    Filter.Tendsto (fun n => ((ewmLastD ([(1:ℚ)/2] ++ List.replicate n ((3:ℚ)/5)) : ℚ) : ℝ))
      Filter.atTop (nhds (((3:ℚ)/5 : ℚ) : ℝ)) :=
  ema_monotone_no_overshoot_convergence.2.2.2 [(1:ℚ)/2] ((3:ℚ)/5) (by decide)

/-- C10: the `iloc[-1]` access of the EMA step never raises: by the time
the EMA step runs, the extracted series is as long as the (non-empty)
fetched record set, so the inner pipeline never produces the
out-of-bounds error. -/
theorem iloc_last_access_safe (e : Env) : isIndexErr (pipelineInner e) = false := by
  rw [pipelineInner]
  cases hf : (fetchRun e).1 with
  | error f =>
    rcases e with ⟨p, s⟩
    cases p with
    | ok d => simp [fetchRun] at hf
    | exc m =>
      simp only [fetchRun, Except.error.injEq] at hf
      rw [← hf]
      rfl
    | attrMissing =>
      cases s with
      | ok d => simp [fetchRun] at hf
      | exc m =>
        simp only [fetchRun, Except.error.injEq] at hf
        rw [← hf]
        rfl
      | attrMissing =>
        simp only [fetchRun, Except.error.injEq] at hf
        rw [← hf]
        rfl
  | ok data =>
    dsimp only
    by_cases h0 : data.length = 0
    · rw [if_pos h0]
      rfl
    · rw [if_neg h0]
      by_cases hin : targetCol (dfColumns data) ∈ dfColumns data
      · rw [if_pos hin]
        cases he : extractFloats (targetCol (dfColumns data)) data with
        | error f => exact extractFloats_not_index _ data f he
        | ok ratios =>
          have hlen := extractFloats_len _ data ratios he
          cases hratios : ratios with
          | nil =>
            rw [hratios] at hlen
            exact absurd (by simpa using hlen.symm) h0
          | cons r rs =>
            show isIndexErr (readingOfRatios (r :: rs)) = false
            rw [readingOfRatios_eq]
            rfl
      · rw [if_neg hin]
        rfl

end CryptoSentiment
